import Mathlib

set_option maxRecDepth 100000

/-!
Verification of the fuzzy user-resolution routine of `excel2jira-v2.py`
(duplicated verbatim in `excel2jira-qbv.py`): the functions `similar`
(line 69) and `find_jira_user` (line 73).

Python strings are modelled as `List Char`; Python float arithmetic on the
similarity ratio is modelled in exact rationals; a raised exception is
modelled by `PyResult.exc`; the Jira directory service (`jira._get_json
('user/search', ...)`) is an oracle parameter of type `Dir` mapping a query
string and a `maxResults` bound to either a list of user records or an
exception.

`similar a b` is `SequenceMatcher(None, a.lower(), b.lower()).ratio()`:
the Ratcliff-Obershelp recursion of `difflib` — repeatedly take the longest
matching block and recurse on the pieces to its left and right; the ratio is
`2*M/T` where `M` is the total matched length and `T` the sum of the two
lengths (and `1.0` when both strings are empty).  The `autojunk` heuristic
of `difflib` only alters which maximal block is chosen for strings of
length at least 200 and never changes the facts proved here (a block is
still a common substring, and on two identical strings the extension loops
still recover the full diagonal match); it is not modelled.
-/

/-- Length of the longest common prefix of two character lists. -/
def commonPrefixLen : List Char → List Char → Nat
  | x :: xs, y :: ys => if x = y then commonPrefixLen xs ys + 1 else 0
  | _, _ => 0

theorem commonPrefixLen_le_left : ∀ a b : List Char, commonPrefixLen a b ≤ a.length := by
  intro a
  induction a with
  | nil => intro b; cases b <;> simp [commonPrefixLen]
  | cons x xs ih =>
    intro b
    cases b with
    | nil => simp [commonPrefixLen]
    | cons y ys =>
      simp only [commonPrefixLen, List.length_cons]
      split
      · exact Nat.succ_le_succ (ih ys)
      · exact Nat.zero_le _

theorem commonPrefixLen_le_right : ∀ a b : List Char, commonPrefixLen a b ≤ b.length := by
  intro a
  induction a with
  | nil => intro b; cases b <;> simp [commonPrefixLen]
  | cons x xs ih =>
    intro b
    cases b with
    | nil => simp [commonPrefixLen]
    | cons y ys =>
      simp only [commonPrefixLen, List.length_cons]
      split
      · exact Nat.succ_le_succ (ih ys)
      · exact Nat.zero_le _

theorem commonPrefixLen_take_eq : ∀ a b : List Char,
    a.take (commonPrefixLen a b) = b.take (commonPrefixLen a b) := by
  intro a
  induction a with
  | nil => intro b; cases b <;> simp [commonPrefixLen]
  | cons x xs ih =>
    intro b
    cases b with
    | nil => simp [commonPrefixLen]
    | cons y ys =>
      simp only [commonPrefixLen]
      split
      · next h => simp [List.take, h, ih ys]
      · simp

theorem commonPrefixLen_self : ∀ a : List Char, commonPrefixLen a a = a.length := by
  intro a
  induction a with
  | nil => simp [commonPrefixLen]
  | cons x xs ih => simp [commonPrefixLen, ih]

/-- The longest matching block of `difflib.SequenceMatcher.find_longest_match`
on the whole strings: among all pairs of positions, the pair giving the
longest common prefix of the suffixes, preferring the smallest start in `a`
and then in `b`.  Returns `(i, j, k)` with `a[i:i+k] == b[j:j+k]`. -/
def findLongestMatch (a b : List Char) : Nat × Nat × Nat :=
  (List.range a.length).foldl
    (fun best i =>
      (List.range b.length).foldl
        (fun best j =>
          if best.2.2 < commonPrefixLen (a.drop i) (b.drop j)
          then (i, j, commonPrefixLen (a.drop i) (b.drop j)) else best)
        best)
    (0, 0, 0)

theorem foldl_inv {α β : Type} {P : β → Prop} {f : β → α → β} :
    ∀ {l : List α} {s : β}, P s → (∀ t x, x ∈ l → P t → P (f t x)) → P (l.foldl f s) := by
  intro l
  induction l with
  | nil => intro s hs _; exact hs
  | cons x xs ih =>
    intro s hs hstep
    exact ih (hstep s x (List.mem_cons_self x xs) hs)
      (fun t y hy ht => hstep t y (List.mem_cons_of_mem x hy) ht)

theorem foldl_sel_mono {α β : Type} {g : β → Nat} {f : β → α → β}
    (hf : ∀ s x, g s ≤ g (f s x)) :
    ∀ (l : List α) (s : β), g s ≤ g (l.foldl f s) := by
  intro l
  induction l with
  | nil => intro s; exact Nat.le_refl _
  | cons x xs ih => intro s; exact Nat.le_trans (hf s x) (ih (f s x))

theorem foldl_sel_ge_of_mem {α β : Type} {g : β → Nat} {c : α → Nat} {f : β → α → β}
    (hf : ∀ s x, g s ≤ g (f s x)) (hc : ∀ s x, c x ≤ g (f s x)) :
    ∀ (l : List α) (s : β) (x : α), x ∈ l → c x ≤ g (l.foldl f s) := by
  intro l
  induction l with
  | nil => intro s x hx; exact absurd hx (List.not_mem_nil x)
  | cons y ys ih =>
    intro s x hx
    rcases List.mem_cons.mp hx with h | h
    · subst h
      exact Nat.le_trans (hc s x) (foldl_sel_mono hf ys (f s x))
    · exact ih (f s y) x h

/-- Validity of a candidate triple for `findLongestMatch a b`. -/
def FlmValid (a b : List Char) (t : Nat × Nat × Nat) : Prop :=
  t.1 + t.2.2 ≤ a.length ∧ t.2.1 + t.2.2 ≤ b.length ∧
    (a.drop t.1).take t.2.2 = (b.drop t.2.1).take t.2.2

theorem flm_valid (a b : List Char) : FlmValid a b (findLongestMatch a b) := by
  unfold findLongestMatch
  apply foldl_inv (P := FlmValid a b)
  · exact ⟨Nat.zero_le _, Nat.zero_le _, rfl⟩
  · intro t i hi ht
    apply foldl_inv (P := FlmValid a b)
    · exact ht
    · intro t' j hj ht'
      split
      · refine ⟨?_, ?_, commonPrefixLen_take_eq _ _⟩
        · show i + commonPrefixLen (a.drop i) (b.drop j) ≤ a.length
          have hk := commonPrefixLen_le_left (a.drop i) (b.drop j)
          have hi' : i < a.length := List.mem_range.mp hi
          simp only [List.length_drop] at hk
          omega
        · show j + commonPrefixLen (a.drop i) (b.drop j) ≤ b.length
          have hk := commonPrefixLen_le_right (a.drop i) (b.drop j)
          have hj' : j < b.length := List.mem_range.mp hj
          simp only [List.length_drop] at hk
          omega
      · exact ht'

theorem flm_k_ge (a b : List Char) (i j : Nat) (hi : i < a.length) (hj : j < b.length) :
    commonPrefixLen (a.drop i) (b.drop j) ≤ (findLongestMatch a b).2.2 := by
  unfold findLongestMatch
  apply foldl_sel_ge_of_mem (g := fun t : Nat × Nat × Nat => t.2.2)
    (c := fun i' : Nat => commonPrefixLen (a.drop i') (b.drop j))
    (f := fun (best : Nat × Nat × Nat) (i' : Nat) =>
      (List.range b.length).foldl
        (fun best j' =>
          if best.2.2 < commonPrefixLen (a.drop i') (b.drop j')
          then (i', j', commonPrefixLen (a.drop i') (b.drop j')) else best)
        best)
  · intro s i'
    apply foldl_sel_mono (g := fun t : Nat × Nat × Nat => t.2.2)
    intro t j'
    by_cases h : t.2.2 < commonPrefixLen (a.drop i') (b.drop j')
    · simp only [h, if_true]
      exact Nat.le_of_lt h
    · simp only [h, if_false]
      exact Nat.le_refl _
  · intro s i'
    apply foldl_sel_ge_of_mem (g := fun t : Nat × Nat × Nat => t.2.2)
      (c := fun j' : Nat => commonPrefixLen (a.drop i') (b.drop j'))
      (f := fun (best : Nat × Nat × Nat) (j' : Nat) =>
        if best.2.2 < commonPrefixLen (a.drop i') (b.drop j')
        then (i', j', commonPrefixLen (a.drop i') (b.drop j')) else best)
    · intro t j'
      by_cases h : t.2.2 < commonPrefixLen (a.drop i') (b.drop j')
      · simp only [h, if_true]
        exact Nat.le_of_lt h
      · simp only [h, if_false]
        exact Nat.le_refl _
    · intro t j'
      by_cases h : t.2.2 < commonPrefixLen (a.drop i') (b.drop j')
      · simp only [h, if_true]
        exact Nat.le_refl _
      · simp only [h, if_false]
        exact Nat.le_of_not_lt h
    · exact List.mem_range.mpr hj
  · exact List.mem_range.mpr hi

theorem flm_self (a : List Char) : findLongestMatch a a = (0, 0, a.length) := by
  cases ha : a with
  | nil => rfl
  | cons x xs =>
    have hlen : 0 < a.length := by rw [ha]; simp
    rw [← ha]
    have hge := flm_k_ge a a 0 0 hlen hlen
    simp only [List.drop_zero, commonPrefixLen_self] at hge
    have hv := flm_valid a a
    rcases hv with ⟨h1, h2, _⟩
    have hk : (findLongestMatch a a).2.2 = a.length := Nat.le_antisymm (by omega) hge
    have hi : (findLongestMatch a a).1 = 0 := by omega
    have hj : (findLongestMatch a a).2.1 = 0 := by omega
    have : findLongestMatch a a =
        ((findLongestMatch a a).1, (findLongestMatch a a).2.1, (findLongestMatch a a).2.2) := rfl
    rw [this, hi, hj, hk]

/-- Fuel-indexed total matched length of the Ratcliff-Obershelp recursion of
`difflib.SequenceMatcher`: take the longest matching block, recurse left and
right.  Structural in the fuel so that it evaluates in the kernel. -/
def matchTotalF : Nat → List Char → List Char → Nat
  | 0, _, _ => 0
  | fuel + 1, a, b =>
    let t := findLongestMatch a b
    if t.2.2 = 0 then 0
    else
      matchTotalF fuel (a.take t.1) (b.take t.2.1) + t.2.2 +
        matchTotalF fuel (a.drop (t.1 + t.2.2)) (b.drop (t.2.1 + t.2.2))

/-- Total matched length `M` of `SequenceMatcher(None, a, b)`; the fuel
`a.length + b.length` is enough for the recursion to run to completion. -/
def matchTotal (a b : List Char) : Nat :=
  matchTotalF (a.length + b.length) a b

theorem matchTotalF_nil : ∀ fuel, matchTotalF fuel [] [] = 0 := by
  intro fuel
  cases fuel <;> rfl

theorem matchTotalF_le (fuel : Nat) :
    ∀ a b : List Char, matchTotalF fuel a b ≤ a.length ∧ matchTotalF fuel a b ≤ b.length := by
  induction fuel with
  | zero => intro a b; exact ⟨Nat.zero_le _, Nat.zero_le _⟩
  | succ fuel ih =>
    intro a b
    simp only [matchTotalF]
    split
    · exact ⟨Nat.zero_le _, Nat.zero_le _⟩
    · have hv := flm_valid a b
      rcases hv with ⟨h1, h2, _⟩
      obtain ⟨hL1, hL2⟩ := ih (a.take (findLongestMatch a b).1) (b.take (findLongestMatch a b).2.1)
      obtain ⟨hR1, hR2⟩ := ih (a.drop ((findLongestMatch a b).1 + (findLongestMatch a b).2.2))
        (b.drop ((findLongestMatch a b).2.1 + (findLongestMatch a b).2.2))
      simp only [List.length_take, List.length_drop] at hL1 hL2 hR1 hR2
      constructor
      · have : min (findLongestMatch a b).1 a.length = (findLongestMatch a b).1 := by omega
        omega
      · have : min (findLongestMatch a b).2.1 b.length = (findLongestMatch a b).2.1 := by omega
        omega

theorem matchTotalF_self (fuel : Nat) (a : List Char) (h : a.length ≤ fuel) :
    matchTotalF fuel a a = a.length := by
  cases fuel with
  | zero =>
    have : a = [] := List.eq_nil_of_length_eq_zero (by omega)
    subst this; rfl
  | succ fuel =>
    cases ha : a with
    | nil => exact matchTotalF_nil _
    | cons x xs =>
      rw [← ha]
      have hne : a.length ≠ 0 := by rw [ha]; simp
      simp only [matchTotalF, flm_self a]
      split
      · next hz => exact absurd hz hne
      · simp only [List.take_zero, Nat.zero_add, List.drop_length, matchTotalF_nil]
        omega

theorem matchTotalF_eq_len (fuel : Nat) :
    ∀ a b : List Char, matchTotalF fuel a b = a.length → matchTotalF fuel a b = b.length →
      a = b := by
  induction fuel with
  | zero =>
    intro a b h1 h2
    simp only [matchTotalF] at h1 h2
    have ha : a = [] := List.eq_nil_of_length_eq_zero h1.symm
    have hb : b = [] := List.eq_nil_of_length_eq_zero h2.symm
    rw [ha, hb]
  | succ fuel ih =>
    intro a b h1 h2
    simp only [matchTotalF] at h1 h2
    rcases hv : findLongestMatch a b with ⟨i, j, k⟩
    have hvv := flm_valid a b
    rw [hv] at hvv h1 h2
    rcases hvv with ⟨hik, hjk, hmid⟩
    simp only at hik hjk hmid h1 h2
    by_cases hk : k = 0
    · rw [if_pos hk] at h1 h2
      have ha : a = [] := List.eq_nil_of_length_eq_zero h1.symm
      have hb : b = [] := List.eq_nil_of_length_eq_zero h2.symm
      rw [ha, hb]
    · rw [if_neg hk] at h1 h2
      obtain ⟨hL1, hL2⟩ := matchTotalF_le fuel (a.take i) (b.take j)
      obtain ⟨hR1, hR2⟩ := matchTotalF_le fuel (a.drop (i + k)) (b.drop (j + k))
      simp only [List.length_take, List.length_drop] at hL1 hL2 hR1 hR2
      have hmin1 : min i a.length = i := by omega
      have hmin2 : min j b.length = j := by omega
      rw [hmin1] at hL1
      rw [hmin2] at hL2
      have hij : i = j := by omega
      have hLa : matchTotalF fuel (a.take i) (b.take j) = (a.take i).length := by
        simp only [List.length_take, hmin1]; omega
      have hLb : matchTotalF fuel (a.take i) (b.take j) = (b.take j).length := by
        simp only [List.length_take, hmin2]; omega
      have hRa : matchTotalF fuel (a.drop (i + k)) (b.drop (j + k)) =
          (a.drop (i + k)).length := by
        simp only [List.length_drop]; omega
      have hRb : matchTotalF fuel (a.drop (i + k)) (b.drop (j + k)) =
          (b.drop (j + k)).length := by
        simp only [List.length_drop]; omega
      have hTake : a.take i = b.take j := ih _ _ hLa hLb
      have hDrop : a.drop (i + k) = b.drop (j + k) := ih _ _ hRa hRb
      have hmidfull : (a.drop i).take k = (b.drop j).take k := hmid
      have hdd1 : (a.drop i).drop k = a.drop (i + k) := List.drop_drop k i a
      have hdd2 : (b.drop j).drop k = b.drop (j + k) := List.drop_drop k j b
      have hexp : ∀ (l : List Char) (n m : Nat),
          l.take n ++ ((l.drop n).take m ++ (l.drop n).drop m) = l := by
        intro l n m
        rw [List.take_append_drop m (l.drop n), List.take_append_drop n l]
      calc a = a.take i ++ ((a.drop i).take k ++ (a.drop i).drop k) := (hexp a i k).symm
        _ = b.take j ++ ((b.drop j).take k ++ (b.drop j).drop k) := by
              rw [hTake, hmidfull, hdd1, hdd2, hDrop]
        _ = b := hexp b j k

theorem matchTotal_le_left (a b : List Char) : matchTotal a b ≤ a.length :=
  (matchTotalF_le _ a b).1

theorem matchTotal_le_right (a b : List Char) : matchTotal a b ≤ b.length :=
  (matchTotalF_le _ a b).2

theorem matchTotal_self (a : List Char) : matchTotal a a = a.length :=
  matchTotalF_self _ a (by omega)

theorem matchTotal_eq_len {a b : List Char}
    (h1 : matchTotal a b = a.length) (h2 : matchTotal a b = b.length) : a = b :=
  matchTotalF_eq_len _ a b h1 h2

/-- `SequenceMatcher.ratio()`: `2*M/T`, and `1.0` when both strings are
empty (so that `T = 0`); exact rational arithmetic models the float. -/
def ratioOf (a b : List Char) : ℚ :=
  if a.length + b.length = 0 then 1
  else mkRat (2 * matchTotal a b) (a.length + b.length)

theorem ratioOf_eq_div (a b : List Char) (h : a.length + b.length ≠ 0) :
    ratioOf a b = ((2 * matchTotal a b : ℕ) : ℚ) / ((a.length + b.length : ℕ) : ℚ) := by
  unfold ratioOf
  rw [if_neg h, Rat.mkRat_eq_div]
  push_cast
  ring

theorem ratioOf_nonneg (a b : List Char) : 0 ≤ ratioOf a b := by
  by_cases h : a.length + b.length = 0
  · unfold ratioOf
    rw [if_pos h]
    exact zero_le_one
  · rw [ratioOf_eq_div a b h]
    exact div_nonneg (Nat.cast_nonneg _) (Nat.cast_nonneg _)

theorem ratioOf_le_one (a b : List Char) : ratioOf a b ≤ 1 := by
  by_cases h : a.length + b.length = 0
  · unfold ratioOf
    rw [if_pos h]
  · rw [ratioOf_eq_div a b h]
    rw [div_le_one (by exact_mod_cast Nat.pos_of_ne_zero h)]
    have h1 := matchTotal_le_left a b
    have h2 := matchTotal_le_right a b
    exact_mod_cast by omega

theorem ratioOf_eq_one_iff (a b : List Char) : ratioOf a b = 1 ↔ a = b := by
  by_cases h : a.length + b.length = 0
  · have ha : a = [] := List.eq_nil_of_length_eq_zero (by omega)
    have hb : b = [] := List.eq_nil_of_length_eq_zero (by omega)
    subst ha; subst hb
    unfold ratioOf
    simp
  · rw [ratioOf_eq_div a b h]
    have hden : ((a.length + b.length : ℕ) : ℚ) ≠ 0 := by
      exact_mod_cast h
    rw [div_eq_iff hden, one_mul]
    constructor
    · intro hcast
      have hnat : 2 * matchTotal a b = a.length + b.length := by exact_mod_cast hcast
      have h1 := matchTotal_le_left a b
      have h2 := matchTotal_le_right a b
      exact matchTotal_eq_len (by omega) (by omega)
    · intro hab
      subst hab
      rw [matchTotal_self]
      push_cast
      ring

/-- `similar(a, b)` (line 69): `SequenceMatcher(None, a.lower(), b.lower()).ratio()`. -/
def pyLower (s : List Char) : List Char := s.map Char.toLower

def similar (a b : List Char) : ℚ := ratioOf (pyLower a) (pyLower b)

theorem similar_nonneg (a b : List Char) : 0 ≤ similar a b := ratioOf_nonneg _ _

theorem similar_le_one (a b : List Char) : similar a b ≤ 1 := ratioOf_le_one _ _

theorem similar_eq_one_iff (a b : List Char) : similar a b = 1 ↔ pyLower a = pyLower b :=
  ratioOf_eq_one_iff _ _

theorem similar_self (a : List Char) : similar a a = 1 :=
  (similar_eq_one_iff a a).mpr rfl

/-- A value stored under a key of a user record returned by the directory
service: the key may be missing, hold JSON `null` (Python `None`), or hold a
string. -/
inductive JField
  | absent
  | jnull
  | jstr (s : List Char)
deriving DecidableEq

/-- A directory entry as `find_jira_user` reads it: the keys `name`,
`displayName`, `emailAddress` and `accountId` of the JSON object returned
by the `user/search` endpoint. -/
structure JUser where
  name : JField
  displayName : JField
  emailAddress : JField
  accountId : JField
deriving DecidableEq

/-- Outcome of a Python expression: a value, or a raised exception. -/
inductive PyResult (α : Type)
  | ok (v : α)
  | exc
deriving DecidableEq

/-- The directory service: `jira._get_json('user/search', params={'query': q,
'maxResults': n})`, which returns a list of user records or raises. -/
def Dir : Type := List Char → Nat → PyResult (List JUser)

/-- `user.get(key, '')` as consumed by `similar`: a missing key yields the
default `''`; a key holding `None` yields `None`, on which the `.lower()`
inside `similar` raises `AttributeError` — modelled as `exc`. -/
def fieldStr : JField → PyResult (List Char)
  | .absent => .ok []
  | .jnull => .exc
  | .jstr s => .ok s

/-- `user.get('accountId')`: `None` when the key is missing or holds `None`. -/
def accountIdOf (u : JUser) : Option (List Char) :=
  match u.accountId with
  | .jstr s => some s
  | _ => none

/-- Lines 119-124: the three per-field similarity scores of a candidate and
their maximum; raises (`exc`) when a field holds `None`. -/
def scoreUser (sv : List Char) (u : JUser) : PyResult ℚ :=
  match fieldStr u.name, fieldStr u.displayName, fieldStr u.emailAddress with
  | .ok n, .ok d, .ok e => .ok (max (similar sv n) (max (similar sv d) (similar sv e)))
  | _, _, _ => .exc

/-- The acceptance threshold `0.6` of line 127, as the exact rational 3/5. -/
def simThreshold : ℚ := mkRat 6 10

theorem simThreshold_eq : simThreshold = (6 : ℚ) / 10 := by
  unfold simThreshold
  rw [Rat.mkRat_eq_div]
  norm_num

/-- Lines 116-128: the loop building `filtered_users` — score each user in
order and keep those with `max_similarity > 0.6`; any raise inside the loop
aborts the whole fuzzy phase. -/
def buildFiltered (sv : List Char) : List JUser → PyResult (List (JUser × ℚ))
  | [] => .ok []
  | u :: us =>
    match scoreUser sv u, buildFiltered sv us with
    | .ok q, .ok rest => .ok (if simThreshold < q then (u, q) :: rest else rest)
    | _, _ => .exc

/-- One step of `filtered_users.sort(key=lambda x: x[1], reverse=True)`:
stable insertion in descending score order — an element moves past another
only when its score is strictly greater, so the original (directory-service)
order is kept among equal scores, as Python's stable sort does. -/
def insertDesc (x : JUser × ℚ) : List (JUser × ℚ) → List (JUser × ℚ)
  | [] => [x]
  | y :: ys => if y.2 ≤ x.2 then x :: y :: ys else y :: insertDesc x ys

/-- Line 131: the stable descending sort of the filtered candidates. -/
def sortDesc : List (JUser × ℚ) → List (JUser × ℚ)
  | [] => []
  | x :: xs => insertDesc x (sortDesc xs)

/-- The first element attaining the maximal score (ties: earliest wins). -/
def firstArgmax : List (JUser × ℚ) → Option (JUser × ℚ)
  | [] => none
  | x :: xs =>
    match firstArgmax xs with
    | none => some x
    | some b => some (if x.2 < b.2 then b else x)

/-- Lines 105-141: the fuzzy-search phase — `user/search` with the raw query
and `maxResults=50`, scoring, filtering, sorting, and returning the best
match's `accountId`; any exception inside the phase is caught (line 140)
and the phase yields "no match". -/
def fuzzyPhase (dir : Dir) (sv : List Char) : Option (List Char) :=
  match dir sv 50 with
  | .exc => none
  | .ok users =>
    if users.isEmpty then none
    else
      match buildFiltered sv users with
      | .exc => none
      | .ok filtered =>
        match sortDesc filtered with
        | [] => none
        | best :: _ => accountIdOf best.1

/-- Lines 80-86: the four synthesized e-mail patterns, in source order. -/
def removeSpaces (s : List Char) : List Char := s.filter (fun c => c ≠ ' ')

def replaceSpaceDot (s : List Char) : List Char :=
  s.map (fun c => if c = ' ' then '.' else c)

def domainSuffix : List Char := "@final.co.il".data

def emailPatterns (sv : List Char) : List (List Char) :=
  [sv ++ domainSuffix,
   pyLower sv ++ domainSuffix,
   removeSpaces sv ++ domainSuffix,
   pyLower (replaceSpaceDot sv) ++ domainSuffix]

/-- Outcome of the email-pattern loop of lines 88-102. -/
inductive EmailOutcome
  | hit (v : Option (List Char))
  | exhausted
  | failed
deriving DecidableEq

/-- Lines 88-102: try each pattern with `maxResults=1`; a non-empty result
returns that user's `accountId` at once (`hit`); an exception aborts the
remaining patterns (`failed`, caught at line 101); otherwise `exhausted`.
Either way, a non-`hit` outcome falls through to the fuzzy phase. -/
def emailLoop (dir : Dir) : List (List Char) → EmailOutcome
  | [] => .exhausted
  | p :: ps =>
    match dir p 1 with
    | .exc => .failed
    | .ok [] => emailLoop dir ps
    | .ok (u :: _) => .hit (accountIdOf u)

/-- `find_jira_user(search_value)` (lines 73-147): the email-pattern phase
runs only when the query contains no `'@'`; a hit returns immediately,
otherwise the fuzzy phase decides.  The outer `try` of line 76 catches
nothing further in this model, since every inner failure is already caught
locally. -/
def find_jira_user (dir : Dir) (sv : List Char) : Option (List Char) :=
  if sv.contains '@' then fuzzyPhase dir sv
  else
    match emailLoop dir (emailPatterns sv) with
    | .hit v => v
    | _ => fuzzyPhase dir sv

/-- Which phase produced the result. -/
inductive Phase
  | email
  | fuzzy
deriving DecidableEq

/-- `find_jira_user` instrumented with the phase that produced its result. -/
def find_jira_user_traced (dir : Dir) (sv : List Char) : Option (List Char) × Phase :=
  if sv.contains '@' then (fuzzyPhase dir sv, .fuzzy)
  else
    match emailLoop dir (emailPatterns sv) with
    | .hit v => (v, .email)
    | _ => (fuzzyPhase dir sv, .fuzzy)

theorem find_jira_user_traced_fst (dir : Dir) (sv : List Char) :
    (find_jira_user_traced dir sv).1 = find_jira_user dir sv := by
  unfold find_jira_user_traced find_jira_user
  split
  · rfl
  · rcases emailLoop dir (emailPatterns sv) <;> rfl

/-- The control state in which the fuzzy phase decides the result: either
the query contains `'@'` (the email phase is skipped), or the email-pattern
loop fell through without a hit. -/
abbrev reachesFuzzy (dir : Dir) (sv : List Char) : Prop :=
  sv.contains '@' = true ∨
  emailLoop dir (emailPatterns sv) = .exhausted ∨
  emailLoop dir (emailPatterns sv) = .failed

theorem find_eq_fuzzy {dir : Dir} {sv : List Char} (h : reachesFuzzy dir sv) :
    find_jira_user dir sv = fuzzyPhase dir sv := by
  unfold find_jira_user
  rcases h with h | h | h
  · rw [if_pos h]
  · split
    · rfl
    · rw [h]
  · split
    · rfl
    · rw [h]

theorem fieldStr_ok_of_ne_jnull {f : JField} (h : f ≠ .jnull) :
    ∃ s, fieldStr f = .ok s := by
  cases f with
  | absent => exact ⟨[], rfl⟩
  | jnull => exact absurd rfl h
  | jstr s => exact ⟨s, rfl⟩

theorem scoreUser_ok_le_one {sv : List Char} {u : JUser} {q : ℚ}
    (h : scoreUser sv u = .ok q) : q ≤ 1 := by
  unfold scoreUser at h
  rcases h1 : fieldStr u.name with n | _ <;> rw [h1] at h <;>
    rcases h2 : fieldStr u.displayName with d | _ <;> rw [h2] at h <;>
      rcases h3 : fieldStr u.emailAddress with e | _ <;> rw [h3] at h <;>
        try exact PyResult.noConfusion h
  injection h with h
  subst h
  exact max_le (similar_le_one _ _) (max_le (similar_le_one _ _) (similar_le_one _ _))

theorem scoreUser_exc_of_jnull {sv : List Char} {u : JUser}
    (h : u.name = .jnull ∨ u.displayName = .jnull ∨ u.emailAddress = .jnull) :
    scoreUser sv u = .exc := by
  have hx : fieldStr u.name = .exc ∨ fieldStr u.displayName = .exc ∨
      fieldStr u.emailAddress = .exc := by
    rcases h with h | h | h
    · exact Or.inl (by rw [h]; rfl)
    · exact Or.inr (Or.inl (by rw [h]; rfl))
    · exact Or.inr (Or.inr (by rw [h]; rfl))
  unfold scoreUser
  rcases h1 : fieldStr u.name with n | _ <;>
    rcases h2 : fieldStr u.displayName with d | _ <;>
      rcases h3 : fieldStr u.emailAddress with e | _ <;>
        first
        | rfl
        | (rw [h1, h2, h3] at hx
           rcases hx with hx | hx | hx <;> exact absurd hx (by simp))

theorem scoreUser_ok_of_no_jnull {sv : List Char} {u : JUser}
    (h : u.name ≠ .jnull ∧ u.displayName ≠ .jnull ∧ u.emailAddress ≠ .jnull) :
    ∃ q, scoreUser sv u = .ok q := by
  obtain ⟨n, hn⟩ := fieldStr_ok_of_ne_jnull h.1
  obtain ⟨d, hd⟩ := fieldStr_ok_of_ne_jnull h.2.1
  obtain ⟨e, he⟩ := fieldStr_ok_of_ne_jnull h.2.2
  refine ⟨max (similar sv n) (max (similar sv d) (similar sv e)), ?_⟩
  unfold scoreUser
  rw [hn, hd, he]

theorem buildFiltered_exc_of_mem {sv : List Char} {us : List JUser} {u : JUser}
    (hu : u ∈ us) (h : scoreUser sv u = .exc) : buildFiltered sv us = .exc := by
  induction us with
  | nil => exact absurd hu (List.not_mem_nil u)
  | cons v vs ih =>
    rcases List.mem_cons.mp hu with heq | hmem
    · subst heq
      unfold buildFiltered
      rw [h]
    · unfold buildFiltered
      rw [ih hmem]
      rcases scoreUser sv v <;> rfl

theorem buildFiltered_mem {sv : List Char} {us : List JUser} {l : List (JUser × ℚ)}
    (h : buildFiltered sv us = .ok l) :
    ∀ p ∈ l, scoreUser sv p.1 = .ok p.2 ∧ simThreshold < p.2 ∧ p.1 ∈ us := by
  induction us generalizing l with
  | nil =>
    unfold buildFiltered at h
    injection h with h
    subst h
    intro p hp
    exact absurd hp (List.not_mem_nil p)
  | cons v vs ih =>
    unfold buildFiltered at h
    rcases hq : scoreUser sv v with q | _ <;> rw [hq] at h <;>
      rcases hrest : buildFiltered sv vs with rest | _ <;> rw [hrest] at h <;>
        try exact PyResult.noConfusion h
    injection h with h
    subst h
    intro p hp
    by_cases hth : simThreshold < q
    · rw [if_pos hth] at hp
      rcases List.mem_cons.mp hp with heq | hmem
      · subst heq
        exact ⟨hq, hth, List.mem_cons_self v vs⟩
      · obtain ⟨h1, h2, h3⟩ := ih hrest p hmem
        exact ⟨h1, h2, List.mem_cons_of_mem v h3⟩
    · rw [if_neg hth] at hp
      obtain ⟨h1, h2, h3⟩ := ih hrest p hp
      exact ⟨h1, h2, List.mem_cons_of_mem v h3⟩

theorem buildFiltered_ok_nil {sv : List Char} {us : List JUser}
    (h : ∀ u ∈ us, ∃ q, scoreUser sv u = .ok q ∧ q ≤ simThreshold) :
    buildFiltered sv us = .ok [] := by
  induction us with
  | nil => rfl
  | cons v vs ih =>
    obtain ⟨q, hq, hle⟩ := h v (List.mem_cons_self v vs)
    have hrest := ih (fun u hu => h u (List.mem_cons_of_mem v hu))
    unfold buildFiltered
    rw [hq, hrest]
    show PyResult.ok (if simThreshold < q then (v, q) :: [] else []) = PyResult.ok []
    rw [if_neg (not_lt.mpr hle)]

theorem buildFiltered_ok_of_no_jnull (sv : List Char) {us : List JUser}
    (h : ∀ u ∈ us, u.name ≠ .jnull ∧ u.displayName ≠ .jnull ∧ u.emailAddress ≠ .jnull) :
    ∃ l, buildFiltered sv us = .ok l := by
  induction us with
  | nil => exact ⟨[], rfl⟩
  | cons v vs ih =>
    obtain ⟨q, hq⟩ := scoreUser_ok_of_no_jnull (h v (List.mem_cons_self v vs))
    obtain ⟨rest, hrest⟩ := ih (fun u hu => h u (List.mem_cons_of_mem v hu))
    refine ⟨if simThreshold < q then (v, q) :: rest else rest, ?_⟩
    unfold buildFiltered
    rw [hq, hrest]

theorem mem_of_mem_insertDesc {x z : JUser × ℚ} {l : List (JUser × ℚ)}
    (h : z ∈ insertDesc x l) : z = x ∨ z ∈ l := by
  induction l with
  | nil =>
    unfold insertDesc at h
    rcases List.mem_cons.mp h with h | h
    · exact Or.inl h
    · exact absurd h (List.not_mem_nil z)
  | cons y ys ih =>
    unfold insertDesc at h
    split at h
    · rcases List.mem_cons.mp h with h | h
      · exact Or.inl h
      · exact Or.inr h
    · rcases List.mem_cons.mp h with h | h
      · exact Or.inr (h ▸ List.mem_cons_self y ys)
      · rcases ih h with h | h
        · exact Or.inl h
        · exact Or.inr (List.mem_cons_of_mem y h)

theorem mem_of_mem_sortDesc {z : JUser × ℚ} {l : List (JUser × ℚ)}
    (h : z ∈ sortDesc l) : z ∈ l := by
  induction l with
  | nil => exact h
  | cons x xs ih =>
    unfold sortDesc at h
    rcases mem_of_mem_insertDesc h with h | h
    · exact h ▸ List.mem_cons_self x xs
    · exact List.mem_cons_of_mem x (ih h)

theorem insertDesc_eq_cons {x : JUser × ℚ} {l : List (JUser × ℚ)}
    (h : ∀ y ∈ l, y.2 ≤ x.2) : insertDesc x l = x :: l := by
  cases l with
  | nil => rfl
  | cons y ys =>
    unfold insertDesc
    rw [if_pos (h y (List.mem_cons_self y ys))]

theorem firstArgmax_none_iff (l : List (JUser × ℚ)) : firstArgmax l = none ↔ l = [] := by
  cases l with
  | nil => simp [firstArgmax]
  | cons x xs =>
    simp only [firstArgmax]
    rcases firstArgmax xs <;> simp

theorem sortDesc_head_eq_firstArgmax (l : List (JUser × ℚ)) :
    (sortDesc l).head? = firstArgmax l := by
  induction l with
  | nil => rfl
  | cons x xs ih =>
    unfold sortDesc
    cases hs : sortDesc xs with
    | nil =>
      have hxs : firstArgmax xs = none := by rw [← ih, hs]; rfl
      unfold firstArgmax
      rw [hxs]
      unfold insertDesc
      rfl
    | cons y ys =>
      have hy : firstArgmax xs = some y := by rw [← ih, hs]; rfl
      unfold firstArgmax
      rw [hy]
      unfold insertDesc
      by_cases hc : y.2 ≤ x.2
      · rw [if_pos hc]
        have : ¬ x.2 < y.2 := not_lt.mpr hc
        simp [this]
      · rw [if_neg hc]
        have : x.2 < y.2 := not_le.mp hc
        simp [this]

theorem firstArgmax_mem {l : List (JUser × ℚ)} {b : JUser × ℚ}
    (h : firstArgmax l = some b) : b ∈ l := by
  induction l generalizing b with
  | nil => exact Option.noConfusion h
  | cons x xs ih =>
    unfold firstArgmax at h
    cases hxs : firstArgmax xs with
    | none =>
      rw [hxs] at h
      injection h with h
      exact h ▸ List.mem_cons_self x xs
    | some c =>
      rw [hxs] at h
      injection h with h
      by_cases hc : x.2 < c.2
      · rw [if_pos hc] at h
        exact List.mem_cons_of_mem x (ih (h ▸ hxs))
      · rw [if_neg hc] at h
        exact h ▸ List.mem_cons_self x xs

theorem firstArgmax_ge {l : List (JUser × ℚ)} {b : JUser × ℚ}
    (h : firstArgmax l = some b) : ∀ p ∈ l, p.2 ≤ b.2 := by
  induction l generalizing b with
  | nil => intro p hp; exact absurd hp (List.not_mem_nil p)
  | cons x xs ih =>
    unfold firstArgmax at h
    intro p hp
    cases hxs : firstArgmax xs with
    | none =>
      rw [hxs] at h
      injection h with h
      have hnil : xs = [] := (firstArgmax_none_iff xs).mp hxs
      subst hnil
      rcases List.mem_cons.mp hp with hp | hp
      · rw [hp, ← h]
      · exact absurd hp (List.not_mem_nil p)
    | some c =>
      rw [hxs] at h
      injection h with h
      rcases List.mem_cons.mp hp with hp | hp
      · subst hp
        by_cases hc : p.2 < c.2
        · rw [if_pos hc] at h
          exact le_of_lt (h ▸ hc)
        · rw [if_neg hc] at h
          rw [← h]
      · have hc' := ih hxs p hp
        by_cases hc : x.2 < c.2
        · rw [if_pos hc] at h
          exact h ▸ hc'
        · rw [if_neg hc] at h
          rw [← h]
          exact le_trans hc' (not_lt.mp hc)

theorem firstArgmax_first {l : List (JUser × ℚ)} {b : JUser × ℚ}
    (h : firstArgmax l = some b) :
    ∃ l1 l2, l = l1 ++ b :: l2 ∧ ∀ p ∈ l1, p.2 < b.2 := by
  induction l generalizing b with
  | nil => exact Option.noConfusion h
  | cons x xs ih =>
    unfold firstArgmax at h
    cases hxs : firstArgmax xs with
    | none =>
      rw [hxs] at h
      injection h with h
      exact ⟨[], xs, by rw [h]; rfl, fun p hp => absurd hp (List.not_mem_nil p)⟩
    | some c =>
      rw [hxs] at h
      injection h with h
      by_cases hc : x.2 < c.2
      · rw [if_pos hc] at h
        subst h
        obtain ⟨l1, l2, heq, hlt⟩ := ih hxs
        refine ⟨x :: l1, l2, by rw [heq, List.cons_append], ?_⟩
        intro p hp
        rcases List.mem_cons.mp hp with hp | hp
        · exact hp ▸ hc
        · exact hlt p hp
      · rw [if_neg hc] at h
        subst h
        exact ⟨[], xs, rfl, fun p hp => absurd hp (List.not_mem_nil p)⟩

theorem fuzzyPhase_none_of_exc {dir : Dir} {sv : List Char}
    (h : dir sv 50 = .exc) : fuzzyPhase dir sv = none := by
  unfold fuzzyPhase
  rw [h]

theorem fuzzyPhase_none_of_filter_exc {dir : Dir} {sv : List Char} {users : List JUser}
    (hdir : dir sv 50 = .ok users) (h : buildFiltered sv users = .exc) :
    fuzzyPhase dir sv = none := by
  unfold fuzzyPhase
  rw [hdir]
  cases users with
  | nil => rfl
  | cons v vs =>
    simp only [List.isEmpty_cons, Bool.false_eq_true, if_false]
    rw [h]

theorem fuzzyPhase_none_of_filter_nil {dir : Dir} {sv : List Char} {users : List JUser}
    (hdir : dir sv 50 = .ok users) (h : buildFiltered sv users = .ok []) :
    fuzzyPhase dir sv = none := by
  unfold fuzzyPhase
  rw [hdir]
  cases users with
  | nil => rfl
  | cons v vs =>
    simp only [List.isEmpty_cons, Bool.false_eq_true, if_false]
    rw [h]
    rfl

theorem fuzzyPhase_eq_best {dir : Dir} {sv : List Char} {users : List JUser}
    {filtered : List (JUser × ℚ)} {best : JUser × ℚ}
    (hdir : dir sv 50 = .ok users)
    (hfil : buildFiltered sv users = .ok filtered)
    (hbest : firstArgmax filtered = some best) :
    fuzzyPhase dir sv = accountIdOf best.1 := by
  cases users with
  | nil =>
    unfold buildFiltered at hfil
    injection hfil with hfil
    rw [← hfil] at hbest
    exact Option.noConfusion hbest
  | cons v vs =>
    have hstep : fuzzyPhase dir sv =
        (match sortDesc filtered with
         | [] => none
         | best :: _ => accountIdOf best.1) := by
      unfold fuzzyPhase
      rw [hdir]
      simp only [List.isEmpty_cons, Bool.false_eq_true, if_false]
      rw [hfil]
    rw [hstep]
    have hhead : (sortDesc filtered).head? = some best := by
      rw [sortDesc_head_eq_firstArgmax]
      exact hbest
    cases hs : sortDesc filtered with
    | nil => rw [hs] at hhead; exact Option.noConfusion hhead
    | cons z t =>
      rw [hs] at hhead
      injection hhead with hz
      subst hz
      rfl

theorem emailLoop_hit_of_prefix_empty (dir : Dir) (sv : List Char) (k : Nat)
    (u : JUser) (rest : List JUser) (hk : k < 4)
    (hbefore : ∀ p ∈ (emailPatterns sv).take k, dir p 1 = .ok [])
    (hhit : dir ((emailPatterns sv).getD k []) 1 = .ok (u :: rest)) :
    emailLoop dir (emailPatterns sv) = .hit (accountIdOf u) := by
  rcases k with _ | _ | _ | _ | k
  · simp only [emailPatterns, List.getD_cons_zero] at hhit
    simp only [emailLoop, emailPatterns, hhit]
  · have h0 : dir (sv ++ domainSuffix) 1 = .ok [] := hbefore _ (by simp [emailPatterns])
    simp only [emailPatterns, List.getD_cons_succ, List.getD_cons_zero] at hhit
    simp only [emailLoop, emailPatterns, h0, hhit]
  · have h0 : dir (sv ++ domainSuffix) 1 = .ok [] := hbefore _ (by simp [emailPatterns])
    have h1 : dir (pyLower sv ++ domainSuffix) 1 = .ok [] :=
      hbefore _ (by simp [emailPatterns])
    simp only [emailPatterns, List.getD_cons_succ, List.getD_cons_zero] at hhit
    simp only [emailLoop, emailPatterns, h0, h1, hhit]
  · have h0 : dir (sv ++ domainSuffix) 1 = .ok [] := hbefore _ (by simp [emailPatterns])
    have h1 : dir (pyLower sv ++ domainSuffix) 1 = .ok [] :=
      hbefore _ (by simp [emailPatterns])
    have h2 : dir (removeSpaces sv ++ domainSuffix) 1 = .ok [] :=
      hbefore _ (by simp [emailPatterns])
    simp only [emailPatterns, List.getD_cons_succ, List.getD_cons_zero] at hhit
    simp only [emailLoop, emailPatterns, h0, h1, h2, hhit]
  · omega

theorem emailLoop_exhausted_of_all_empty (dir : Dir) (sv : List Char)
    (hall : ∀ p ∈ emailPatterns sv, dir p 1 = .ok []) :
    emailLoop dir (emailPatterns sv) = .exhausted := by
  have h0 : dir (sv ++ domainSuffix) 1 = .ok [] := hall _ (by simp [emailPatterns])
  have h1 : dir (pyLower sv ++ domainSuffix) 1 = .ok [] := hall _ (by simp [emailPatterns])
  have h2 : dir (removeSpaces sv ++ domainSuffix) 1 = .ok [] :=
    hall _ (by simp [emailPatterns])
  have h3 : dir (pyLower (replaceSpaceDot sv) ++ domainSuffix) 1 = .ok [] :=
    hall _ (by simp [emailPatterns])
  simp only [emailLoop, emailPatterns, h0, h1, h2, h3]

theorem find_of_email_hit {dir : Dir} {sv : List Char} {v : Option (List Char)}
    (hnoat : sv.contains '@' = false)
    (hloop : emailLoop dir (emailPatterns sv) = .hit v) :
    find_jira_user dir sv = v := by
  unfold find_jira_user
  rw [hnoat]
  simp only [Bool.false_eq_true, if_false, hloop]

theorem accountIdOf_absent {u : JUser} (h : u.accountId = .absent) :
    accountIdOf u = none := by
  unfold accountIdOf
  rw [h]

/-! Concrete directory fixtures used by witnesses and counterexamples. -/

def userJane : JUser := ⟨.absent, .jstr "Jane Doe".data, .absent, .jstr "123".data⟩

def userBob : JUser := ⟨.absent, .jstr "Bob Smith".data, .absent, .jstr "999".data⟩

def dirJane : Dir := fun q _ =>
  if q = "Jane Doe".data then .ok [userBob, userJane] else .ok []

def userMail : JUser :=
  ⟨.absent, .absent, .jstr "jane@final.co.il".data, .jstr "123".data⟩

def dirMail : Dir := fun q _ =>
  if q = "jane@final.co.il".data then .ok [userMail] else .ok []

def userAnn : JUser := ⟨.absent, .jstr "Ann".data, .absent, .jstr "a9".data⟩

def dirFlaky : Dir := fun q n =>
  if n = 1 then .exc else if q = "Ann".data then .ok [userAnn] else .ok []

def dirDown : Dir := fun _ _ => .exc

def userW3 : JUser := ⟨.jstr "jo".data, .absent, .jstr "jo@f".data, .absent⟩

def dirZed : Dir := fun q _ => if q = "Zed".data then .ok [userBob] else .ok []

def user90 : JUser := ⟨.absent, .jstr "abcdefghiX".data, .absent, .jstr "A1".data⟩

def user70 : JUser := ⟨.absent, .jstr "abcdefgXYZ".data, .absent, .jstr "A2".data⟩

def dirRank : Dir := fun q _ =>
  if q = "abcdefghij".data then .ok [user70, user90] else .ok []

def userJD : JUser := ⟨.absent, .absent, .absent, .jstr "w6".data⟩

def dirJD : Dir := fun q _ =>
  if q = "JohnD@final.co.il".data then .ok [userJD] else .ok []

def userNull : JUser := ⟨.jnull, .jstr "Ann".data, .absent, .jstr "n1".data⟩

def dirNull : Dir := fun q _ =>
  if q = "Ann".data then .ok [userAnn, userNull] else .ok []

def userNoId : JUser := ⟨.absent, .jstr "Tom Lee".data, .absent, .absent⟩

def dirNoId : Dir := fun q _ =>
  if q = "Tom Lee@final.co.il".data then .ok [userNoId] else .ok []

/-- C1 (counterexample): a query that exactly equals a directory entry's
`emailAddress` contains `'@'`, so line 78 skips the email-pattern phase
entirely; the result `"123"` is produced by the fuzzy phase, not by the
email-pattern lookup phase as the claim states. -/
theorem claim_C1_counterexample :
    find_jira_user_traced dirMail ("jane@final.co.il".data) =
      (some ("123".data), Phase.fuzzy) ∧
    Phase.fuzzy ≠ Phase.email := by
  constructor
  · decide
  · decide

/-- C1 (amended): for a query exactly equal to a directory entry's
`emailAddress` — such a query contains `'@'`, so the email-pattern phase is
skipped and the result is produced by the fuzzy phase — if the free-text
search returns that entry first (and no returned record holds a `null`
field), the entry scores a full `1.0` on the `emailAddress` field and its
`accountId` is returned. -/
theorem claim_C1_amended (dir : Dir) (sv : List Char) (u : JUser) (rest : List JUser)
    (hat : sv.contains '@' = true)
    (hmail : u.emailAddress = .jstr sv)
    (hname : u.name ≠ .jnull) (hdisp : u.displayName ≠ .jnull)
    (hdir : dir sv 50 = .ok (u :: rest))
    (hrest : ∀ r ∈ rest, r.name ≠ .jnull ∧ r.displayName ≠ .jnull ∧
      r.emailAddress ≠ .jnull) :
    find_jira_user dir sv = accountIdOf u ∧
    find_jira_user_traced dir sv = (accountIdOf u, Phase.fuzzy) := by
  obtain ⟨n, hn⟩ := fieldStr_ok_of_ne_jnull hname
  obtain ⟨d, hd⟩ := fieldStr_ok_of_ne_jnull hdisp
  have he : fieldStr u.emailAddress = .ok sv := by rw [hmail]; rfl
  have hsc : scoreUser sv u = .ok 1 := by
    unfold scoreUser
    rw [hn, hd, he]
    show PyResult.ok (max (similar sv n) (max (similar sv d) (similar sv sv))) = _
    rw [similar_self, max_eq_right (similar_le_one sv d),
      max_eq_right (similar_le_one sv n)]
  obtain ⟨rest', hrest'⟩ := buildFiltered_ok_of_no_jnull sv hrest
  have hthr : simThreshold < 1 := by decide
  have hbf : buildFiltered sv (u :: rest) = .ok ((u, 1) :: rest') := by
    unfold buildFiltered
    rw [hsc, hrest']
    show PyResult.ok (if simThreshold < 1 then (u, (1 : ℚ)) :: rest' else rest') = _
    rw [if_pos hthr]
  have hsort : sortDesc ((u, (1 : ℚ)) :: rest') = (u, (1 : ℚ)) :: sortDesc rest' := by
    show insertDesc (u, (1 : ℚ)) (sortDesc rest') = (u, (1 : ℚ)) :: sortDesc rest'
    apply insertDesc_eq_cons
    intro y hy
    exact scoreUser_ok_le_one (buildFiltered_mem hrest' y (mem_of_mem_sortDesc hy)).1
  have hfz : fuzzyPhase dir sv = accountIdOf u := by
    unfold fuzzyPhase
    rw [hdir]
    simp only [List.isEmpty_cons, Bool.false_eq_true, if_false]
    rw [hbf]
    show (match sortDesc ((u, (1 : ℚ)) :: rest') with
          | [] => none
          | best :: _ => accountIdOf best.1) = accountIdOf u
    rw [hsort]
  constructor
  · rw [find_eq_fuzzy (Or.inl hat)]
    exact hfz
  · unfold find_jira_user_traced
    simp only [hat, if_true, hfz]

/-- C1 (amended, witness): the amended claim at the concrete directory of the
counterexample. -/
theorem claim_C1_amended_witness :
    find_jira_user dirMail ("jane@final.co.il".data) = accountIdOf userMail ∧
    find_jira_user_traced dirMail ("jane@final.co.il".data) =
      (accountIdOf userMail, Phase.fuzzy) :=
  claim_C1_amended dirMail ("jane@final.co.il".data) userMail []
    (by decide) (by decide) (by decide) (by decide) (by decide) (by decide)

/-- C2: the resolver is a total function (it never raises — its result type
is `Option`): a directory exception during the email-pattern phase leaves
the result exactly that of the fuzzy phase, which still runs and may
succeed; a directory exception during the fuzzy phase makes the overall
result "no match" (`none`). -/
theorem claim_C2 (dir : Dir) (sv : List Char) :
    (emailLoop dir (emailPatterns sv) = .failed →
      find_jira_user dir sv = fuzzyPhase dir sv) ∧
    (reachesFuzzy dir sv → dir sv 50 = .exc → find_jira_user dir sv = none) := by
  constructor
  · intro h
    exact find_eq_fuzzy (Or.inr (Or.inr h))
  · intro hr hx
    rw [find_eq_fuzzy hr]
    exact fuzzyPhase_none_of_exc hx

/-- C2 (witness): `dirFlaky` raises on every single-result lookup, so the
email phase fails, yet the fuzzy phase still succeeds with `"a9"`;
`dirDown` raises on every call and the result is `none`. -/
theorem claim_C2_witness :
    find_jira_user dirFlaky ("Ann".data) = some ("a9".data) ∧
    find_jira_user dirDown ("Ann".data) = none := by
  constructor
  · exact ((claim_C2 dirFlaky ("Ann".data)).1 (by decide)).trans (by decide)
  · exact (claim_C2 dirDown ("Ann".data)).2 (by decide) (by decide)

/-- C3: each candidate's score is the maximum of three per-field similarity
scores (fields `name`, `displayName`, `emailAddress`, defaulting to `''`
when absent), and each per-field score is the case-insensitive matching
ratio: a rational in `[0, 1]` equal to `1` exactly when the case-folded
strings coincide. -/
theorem claim_C3 (sv a b n d e : List Char) (u : JUser)
    (hn : fieldStr u.name = .ok n) (hd : fieldStr u.displayName = .ok d)
    (he : fieldStr u.emailAddress = .ok e) :
    scoreUser sv u =
      .ok (max (similar sv n) (max (similar sv d) (similar sv e))) ∧
    0 ≤ similar a b ∧ similar a b ≤ 1 ∧
    (similar a b = 1 ↔ pyLower a = pyLower b) := by
  refine ⟨?_, similar_nonneg a b, similar_le_one a b, similar_eq_one_iff a b⟩
  unfold scoreUser
  rw [hn, hd, he]

/-- C3 (witness): the score of a concrete candidate is the maximum of its
three per-field similarities. -/
theorem claim_C3_witness :
    scoreUser ("Jo".data) userW3 =
      .ok (max (similar ("Jo".data) ("jo".data))
        (max (similar ("Jo".data) ([] : List Char))
          (similar ("Jo".data) ("jo@f".data)))) :=
  (claim_C3 ("Jo".data) ("x".data) ("y".data) ("jo".data) ([] : List Char)
    ("jo@f".data) userW3 (by decide) (by decide) (by decide)).1

/-- C4: the acceptance threshold is `0.6` and strict — every kept candidate
scores strictly above it, and when every candidate of the fuzzy search
scores at most `0.6` (and the email phase yielded nothing), the resolver
returns "no match" (`none`). -/
theorem claim_C4 (dir : Dir) (sv : List Char) (users : List JUser)
    (filtered : List (JUser × ℚ))
    (hreach : reachesFuzzy dir sv)
    (hdir : dir sv 50 = .ok users)
    (hfil : buildFiltered sv users = .ok filtered) :
    simThreshold = (6 : ℚ) / 10 ∧
    (∀ p ∈ filtered, simThreshold < p.2) ∧
    ((∀ u ∈ users, ∃ q, scoreUser sv u = .ok q ∧ q ≤ simThreshold) →
      find_jira_user dir sv = none) := by
  refine ⟨simThreshold_eq, ?_, ?_⟩
  · intro p hp
    exact (buildFiltered_mem hfil p hp).2.1
  · intro hsmall
    rw [find_eq_fuzzy hreach]
    exact fuzzyPhase_none_of_filter_nil hdir (buildFiltered_ok_nil hsmall)

/-- C4 (witness): the query `"Zed"` scores `0 ≤ 0.6` against the only
directory entry, so the resolver returns `none`. -/
theorem claim_C4_witness :
    find_jira_user dirZed ("Zed".data) = none := by
  refine (claim_C4 dirZed ("Zed".data) [userBob] []
    (by decide) (by decide) (by decide)).2.2 ?_
  intro u hu
  rw [List.mem_singleton] at hu
  subst hu
  exact ⟨0, by decide, by decide⟩

/-- C5: among the candidates surviving the threshold, the resolver returns
the `accountId` of the one with the highest score, and on equal scores the
one earliest in the directory-service order wins (the sort of line 131 is
stable): the selected candidate is a member of the filtered list, its score
bounds every other score, and every candidate strictly before it in the
list scores strictly less. -/
theorem claim_C5 (dir : Dir) (sv : List Char) (users : List JUser)
    (filtered : List (JUser × ℚ)) (best : JUser × ℚ)
    (hreach : reachesFuzzy dir sv)
    (hdir : dir sv 50 = .ok users)
    (hfil : buildFiltered sv users = .ok filtered)
    (hbest : firstArgmax filtered = some best) :
    find_jira_user dir sv = accountIdOf best.1 ∧
    best ∈ filtered ∧
    (∀ p ∈ filtered, p.2 ≤ best.2) ∧
    ∃ l1 l2, filtered = l1 ++ best :: l2 ∧ ∀ p ∈ l1, p.2 < best.2 :=
  ⟨(find_eq_fuzzy hreach).trans (fuzzyPhase_eq_best hdir hfil hbest),
    firstArgmax_mem hbest, firstArgmax_ge hbest, firstArgmax_first hbest⟩

/-- C5 (witness): two candidates scoring `0.9` and `0.7` — listed with the
`0.7` one first — and the `0.9` candidate's identifier `"A1"` is returned. -/
theorem claim_C5_witness :
    find_jira_user dirRank ("abcdefghij".data) = some ("A1".data) := by
  have h := (claim_C5 dirRank ("abcdefghij".data) [user70, user90]
    [(user70, mkRat 7 10), (user90, mkRat 9 10)] (user90, mkRat 9 10)
    (by decide) (by decide) (by decide) (by decide)).1
  exact h.trans (by decide)

/-- C6: for a query with no `'@'`, exactly the four email patterns of lines
81-86 are synthesized in source order (raw, lower-cased, spaces removed,
spaces-to-dots then lower-cased, each with the fixed domain suffix); they
are queried in turn with `maxResults = 1`, the first non-empty answer's
`accountId` is returned immediately, and only when all four come back empty
does the resolver run the broader fuzzy search (`maxResults = 50`). -/
theorem claim_C6 (dir : Dir) (sv : List Char) (hnoat : sv.contains '@' = false) :
    emailPatterns sv =
      [sv ++ domainSuffix, pyLower sv ++ domainSuffix,
       removeSpaces sv ++ domainSuffix, pyLower (replaceSpaceDot sv) ++ domainSuffix] ∧
    (emailPatterns sv).length = 4 ∧
    (∀ k u rest, k < 4 →
      (∀ p ∈ (emailPatterns sv).take k, dir p 1 = .ok []) →
      dir ((emailPatterns sv).getD k []) 1 = .ok (u :: rest) →
      find_jira_user dir sv = accountIdOf u) ∧
    ((∀ p ∈ emailPatterns sv, dir p 1 = .ok []) →
      find_jira_user dir sv = fuzzyPhase dir sv) := by
  refine ⟨rfl, rfl, ?_, ?_⟩
  · intro k u rest hk hbefore hhit
    exact find_of_email_hit hnoat
      (emailLoop_hit_of_prefix_empty dir sv k u rest hk hbefore hhit)
  · intro hall
    exact find_eq_fuzzy (Or.inr (Or.inl (emailLoop_exhausted_of_all_empty dir sv hall)))

/-- C6 (witness): for `"John D"` the third pattern (spaces removed,
`"JohnD@final.co.il"`) is the first hit and its user's `accountId` is
returned at once. -/
theorem claim_C6_witness :
    find_jira_user dirJD ("John D".data) = some ("w6".data) := by
  have h := ((claim_C6 dirJD ("John D".data) (by decide)).2.2.1) 2 userJD []
    (by decide) (by decide) (by decide)
  exact h.trans (by decide)

/-- C7: for the query `"Jane Doe"` against a directory whose fuzzy results
contain the entry `{displayName: "Jane Doe", accountId: "123"}` (and no
synthesized email pattern matches anything), the resolver returns `"123"`. -/
theorem claim_C7 : find_jira_user dirJane ("Jane Doe".data) = some ("123".data) := by
  decide

/-- C8: the resolver is a pure function of the query and the directory
responses — it keeps no state between calls, so two calls with the same
query against directories answering identically return the same result. -/
theorem claim_C8 (dir dir2 : Dir) (sv sv2 : List Char) (hq : sv = sv2)
    (hd : ∀ q n, dir q n = dir2 q n) :
    find_jira_user dir sv = find_jira_user dir2 sv2 := by
  subst hq
  have hdir : dir = dir2 := funext (fun q => funext (fun n => hd q n))
  rw [hdir]

/-- C8 (witness): two calls with the same query and directory agree. -/
theorem claim_C8_witness :
    find_jira_user dirJane ("Jane Doe".data) =
      find_jira_user dirJane ("Jane Doe".data) :=
  claim_C8 dirJane dirJane ("Jane Doe".data) ("Jane Doe".data) rfl (fun _ _ => rfl)

/-- C9: if any record in the fuzzy-search result holds `null` under `name`,
`displayName` or `emailAddress`, the similarity loop raises on it, the
whole ranking phase is abandoned (caught at line 140), and the resolver
returns `none` — even when other candidates score above the threshold. -/
theorem claim_C9 (dir : Dir) (sv : List Char) (users : List JUser) (u : JUser)
    (hreach : reachesFuzzy dir sv)
    (hdir : dir sv 50 = .ok users)
    (hu : u ∈ users)
    (hnull : u.name = .jnull ∨ u.displayName = .jnull ∨ u.emailAddress = .jnull) :
    find_jira_user dir sv = none := by
  rw [find_eq_fuzzy hreach]
  exact fuzzyPhase_none_of_filter_exc hdir
    (buildFiltered_exc_of_mem hu (scoreUser_exc_of_jnull hnull))

/-- C9 (witness): the directory returns a perfect match (`userAnn`, score
`1.0`) followed by a record with a `null` name — and the resolver still
returns `none`. -/
theorem claim_C9_witness : find_jira_user dirNull ("Ann".data) = none :=
  claim_C9 dirNull ("Ann".data) [userAnn, userNull] userNull
    (by decide) (by decide) (by decide) (Or.inl rfl)

/-- C10: the winner's identifier is read with a plain `get('accountId')`, so
a winning entry without an `accountId` key makes the resolver return `none`
in either phase — indistinguishable from "no match" at the interface. -/
theorem claim_C10 (dir : Dir) (sv : List Char) :
    (∀ k u rest, sv.contains '@' = false → k < 4 →
      (∀ p ∈ (emailPatterns sv).take k, dir p 1 = .ok []) →
      dir ((emailPatterns sv).getD k []) 1 = .ok (u :: rest) →
      u.accountId = .absent →
      find_jira_user dir sv = none) ∧
    (∀ users filtered best, reachesFuzzy dir sv →
      dir sv 50 = .ok users →
      buildFiltered sv users = .ok filtered →
      firstArgmax filtered = some best →
      best.1.accountId = .absent →
      find_jira_user dir sv = none) := by
  constructor
  · intro k u rest hnoat hk hbefore hhit habs
    rw [find_of_email_hit hnoat
      (emailLoop_hit_of_prefix_empty dir sv k u rest hk hbefore hhit)]
    exact accountIdOf_absent habs
  · intro users filtered best hreach hdir hfil hbest habs
    rw [(find_eq_fuzzy hreach).trans (fuzzyPhase_eq_best hdir hfil hbest)]
    exact accountIdOf_absent habs

/-- C10 (witness): the first email pattern hits a record without an
`accountId` key and the resolver returns `none`. -/
theorem claim_C10_witness : find_jira_user dirNoId ("Tom Lee".data) = none :=
  (claim_C10 dirNoId ("Tom Lee".data)).1 0 userNoId []
    (by decide) (by decide) (by decide) (by decide) (by decide)
